import Mathlib

/-!
Verification of the dionis reconciliation/aggregation engine
(`src/utils/data_cleaner.py` and `src/scripts/generate_report.py`).

The pandas `DataFrame`s of the source are embedded as Lean lists of records;
a missing cell (pandas `NaN`) is an `Option` that is `none`.  A pandas column
that is absent from a frame behaves, for every operation the engine performs,
exactly like a column in which every cell is `NaN`, so record fields model
both uniformly.  Sorting in pandas (`sort_values`) leaves the relative order
of equal keys unspecified; the embedding fixes it with a stable insertion
sort, which is one of the behaviours the source admits.
-/

namespace Dionis

/-- Scalar values that appear in MongoDB documents and `biological_data`
maps: a number, a string, or Python `None`. -/
inductive PyVal where
  | vnum (q : ℚ)
  | vstr (s : String)
  | vnone
deriving DecidableEq, Repr

/-- Value of a decimal digit character. -/
def digitVal (c : Char) : Option ℕ :=
  if c.isDigit then some (c.toNat - '0'.toNat) else none

/-- Reads a block of decimal digits as a natural number (`some 0` on `[]`;
emptiness is checked by the caller). -/
def natOfDigits (l : List Char) : Option ℕ :=
  l.foldl (fun acc c => acc.bind (fun n => (digitVal c).map (fun d => 10 * n + d))) (some 0)

/-- Model of Python `float()` applied to an unsigned string: digits, an
optional decimal point, at least one digit overall.  (Exotic forms accepted
by Python — exponents, `inf`/`nan`, surrounding whitespace — do not occur in
the value domain of this pipeline and are not modelled.) -/
def parseUnsigned (l : List Char) : Option ℚ :=
  let intPart := l.takeWhile Char.isDigit
  let rest := l.dropWhile Char.isDigit
  match rest with
  | [] =>
    if intPart.isEmpty then none
    else (natOfDigits intPart).map (fun n => (n : ℚ))
  | '.' :: frac =>
    if frac.all Char.isDigit && (!intPart.isEmpty || !frac.isEmpty) then
      match natOfDigits intPart, natOfDigits frac with
      | some i, some f => some ((i : ℚ) + (f : ℚ) / ((10 : ℚ) ^ frac.length))
      | _, _ => none
    else none
  | _ => none

/-- Model of Python `float()` on a string, handling an optional sign. -/
def pyFloatOfString (s : String) : Option ℚ :=
  match s.toList with
  | '-' :: rest => (parseUnsigned rest).map (fun q => -q)
  | '+' :: rest => parseUnsigned rest
  | l => parseUnsigned l

/-- Model of Python `float(v)`: `none` when the call raises
(`TypeError` on `None`, `ValueError` on a non-numeric string). -/
def pyFloat : PyVal → Option ℚ
  | .vnum q => some q
  | .vstr s => pyFloatOfString s
  | .vnone => none

/-- `true` when `float(v)` succeeds. -/
def parsesOk (v : PyVal) : Bool := (pyFloat v).isSome

/-! ### Kernel-computable rational arithmetic

The standard `+`, `*`, `/`, `max` on `ℚ` are irreducible to the
definitional-equality checker, which would make every concrete example
opaque to `decide`.  The embedding therefore computes with the following
`mkRat`-based operations; the bridging lemmas right below each one prove it
equal to the standard operation, so the definitions denote ordinary
rational arithmetic. -/

/-- Rational addition via `mkRat`. -/
def ratAdd (a b : ℚ) : ℚ := mkRat (a.num * b.den + b.num * a.den) (a.den * b.den)

theorem ratAdd_eq (a b : ℚ) : ratAdd a b = a + b := (Rat.add_def' a b).symm

/-- Rational division by a natural number via `mkRat`. -/
def divNat (a : ℚ) (n : ℕ) : ℚ := mkRat a.num (a.den * n)

theorem divNat_eq (a : ℚ) (n : ℕ) : divNat a n = a / n := by
  rw [divNat, Rat.mkRat_eq_div]
  push_cast
  rw [← div_div, Rat.num_div_den]

/-- The arithmetic mean of a list of rationals (`sum(...) / len(...)`). -/
def ratMean (l : List ℚ) : ℚ := divNat (l.foldl ratAdd 0) l.length

theorem foldl_ratAdd (l : List ℚ) : ∀ a : ℚ, l.foldl ratAdd a = a + l.sum := by
  induction l with
  | nil => intro a; simp
  | cons x xs ih =>
    intro a
    rw [List.foldl_cons, ih, ratAdd_eq, List.sum_cons, add_assoc]

theorem ratMean_eq (l : List ℚ) : ratMean l = l.sum / l.length := by
  rw [ratMean, divNat_eq, foldl_ratAdd, zero_add]

/-- Binary maximum and minimum on `ℚ`. -/
def ratMax (a b : ℚ) : ℚ := if a ≤ b then b else a

def ratMin (a b : ℚ) : ℚ := if a ≤ b then a else b

theorem ratMax_eq (a b : ℚ) : ratMax a b = max a b := (max_def a b).symm

theorem ratMin_eq (a b : ℚ) : ratMin a b = min a b := (min_def a b).symm

/-- `max(...)`/`min(...)` over a list, `none` on the empty list. -/
def maxQ : List ℚ → Option ℚ
  | [] => none
  | x :: xs => some (xs.foldl ratMax x)

def minQ : List ℚ → Option ℚ
  | [] => none
  | x :: xs => some (xs.foldl ratMin x)

/-! ### Generic list combinators shared by the embedding

`dedupByAux`/`dedupBy` is pandas `drop_duplicates(subset=…, keep='first')`:
the first record of each key class is kept, in input order.  `insertLe`/
`isort` is a stable insertion sort parameterised by a boolean comparator. -/

/-- Keeps each record whose key `f a` has not been seen yet. -/
def dedupByAux {α κ : Type} [DecidableEq κ] (f : α → κ) : List κ → List α → List α
  | _, [] => []
  | seen, a :: l =>
    if f a ∈ seen then dedupByAux f seen l
    else a :: dedupByAux f (f a :: seen) l

/-- pandas `drop_duplicates` keyed by `f`, keeping the first occurrence. -/
def dedupBy {α κ : Type} [DecidableEq κ] (f : α → κ) (l : List α) : List α :=
  dedupByAux f [] l

/-- Stable insertion of `x` into `l`: `x` is placed before the first element
`y` with `le x y`. -/
def insertLe {α : Type} (le : α → α → Bool) (x : α) : List α → List α
  | [] => [x]
  | y :: ys => if le x y then x :: y :: ys else y :: insertLe le x ys

/-- Stable insertion sort with comparator `le`. -/
def isort {α : Type} (le : α → α → Bool) : List α → List α
  | [] => []
  | x :: xs => insertLe le x (isort le xs)

/-! ### Record Normalizer (`DataCleaner.clean_classifications`,
`src/utils/data_cleaner.py` lines 50–75) -/

/-- A raw classification document.  `confidence = none` models a document
without a `confidence` field (a `NaN` cell after `pd.DataFrame`).
`detected_birds` is passthrough payload never read by the engine. -/
structure Classification where
  audio_file_id : String
  key : Int
  confidence : Option ℚ
  scientific_name : Option String
  detected_birds : List String
deriving DecidableEq, Repr

/-- The deduplication key of `drop_duplicates(subset=['audio_file_id','key'])`. -/
def pairKey (c : Classification) : String × Int := (c.audio_file_id, c.key)

/-- `df['confidence'] >= min_confidence` for one row; a `NaN` cell compares
`False` in pandas. -/
def passesB (t : ℚ) (c : Classification) : Bool :=
  match c.confidence with
  | some q => decide (t ≤ q)
  | none => false

/-- `sort_values('confidence', ascending=False)` comparator: higher
confidence first, `NaN` last. -/
def confGeB (a b : Classification) : Bool :=
  match a.confidence, b.confidence with
  | some x, some y => decide (y ≤ x)
  | some _, none => true
  | none, some _ => false
  | none, none => true

/-- `DataCleaner.clean_classifications`: filter by the confidence threshold,
sort by confidence descending, drop duplicates of `(audio_file_id, key)`
keeping the first (highest-confidence) record. -/
def clean_classifications (classifications : List Classification) (min_confidence : ℚ) :
    List Classification :=
  dedupBy pairKey (isort confGeB (classifications.filter (passesB min_confidence)))

/-! ### Fuzzy species filter (`DataCleaner.filter_species_fuzzy`,
`src/utils/data_cleaner.py` lines 77–102)

The scorer is `rapidfuzz.fuzz.partial_ratio`: the best `fuzz.ratio` of the
shorter string against the same-length windows of the longer one, where
`fuzz.ratio` is the normalised indel similarity scaled to 0–100. -/

/-- Length of a longest common subsequence, by structural recursion on a
fuel argument (every recursive call shortens the combined length by at
least one, so `a.length + b.length` fuel in `lcsLen` is never exhausted). -/
def lcsLenF : ℕ → List Char → List Char → ℕ
  | 0, _, _ => 0
  | _ + 1, [], _ => 0
  | _ + 1, _ :: _, [] => 0
  | fuel + 1, a :: as, b :: bs =>
    if a = b then lcsLenF fuel as bs + 1
    else max (lcsLenF fuel (a :: as) bs) (lcsLenF fuel as (b :: bs))

/-- Length of a longest common subsequence of two character lists. -/
def lcsLen (a b : List Char) : ℕ := lcsLenF (a.length + b.length) a b

/-- `rapidfuzz.fuzz.ratio` on character lists: `100 * (1 - indel/(m+n))`,
which equals `100 * 2*lcs/(m+n)` (see `fuzzRatio_eq`); `100` on two empty
strings. -/
def fuzzRatio (a b : List Char) : ℚ :=
  if a.length + b.length = 0 then 100
  else mkRat (200 * (lcsLen a b : ℤ)) (a.length + b.length)

theorem fuzzRatio_eq (a b : List Char) (h : a.length + b.length ≠ 0) :
    fuzzRatio a b = 100 * (2 * (lcsLen a b : ℚ)) / ((a.length : ℚ) + (b.length : ℚ)) := by
  rw [fuzzRatio, if_neg h, Rat.mkRat_eq_div]
  push_cast
  ring_nf

/-- All contiguous windows of length `n` of `l` (one empty window when
`n = 0`). -/
def windows (n : ℕ) (l : List Char) : List (List Char) :=
  (List.range (l.length - n + 1)).map (fun i => (l.drop i).take n)

/-- `rapidfuzz.fuzz.partial_ratio`: the best ratio of the shorter string
against the same-length windows of the longer. -/
def partRatio (a b : String) : ℚ :=
  let x := a.toList
  let y := b.toList
  let p := if x.length ≤ y.length then (x, y) else (y, x)
  ((windows p.1.length p.2).map (fuzzRatio p.1)).foldl ratMax 0

/-- `rapidfuzz.process.extract(query, choices, scorer=partial_ratio,
score_cutoff=cutoff)`: the scored choices meeting the cutoff, best first,
truncated to `limit` (the rapidfuzz default limit is 5). -/
def processExtract (query : String) (choices : List String) (limit : ℕ) (cutoff : ℚ) :
    List (String × ℚ) :=
  let scored := choices.map (fun c => (c, partRatio query c))
  let qualifying := scored.filter (fun p => decide (cutoff ≤ p.2))
  (isort (fun p q => decide (q.2 ≤ p.2)) qualifying).take limit

/-- `DataCleaner.filter_species_fuzzy`: an empty filter term returns the
input unchanged; otherwise the names of the `process.extract` matches
(the source passes no `limit`, so rapidfuzz's default of 5 applies). -/
def filter_species_fuzzy (species_list : List String) (filter_term : String) (threshold : ℚ) :
    List String :=
  if filter_term = "" then species_list
  else (processExtract filter_term species_list 5 threshold).map Prod.fst

/-! ### Entity Resolver (`fetch_data_from_mongodb`,
`src/scripts/generate_report.py` lines 88–142)

The classification frame is left-merged with the species frame on `key`
(`suffixes=('_class','_species')`; only the overlapping `scientific_name`
column is suffixed — `canonical_name`, `family` and `order` exist only on
the species side and keep their names).  The fallback loop then writes
`<col>_species` cells for every merge column, which for `key`, `family`,
`order` and `canonical_name` creates fresh columns instead of touching the
merged ones. -/

/-- A species reference document (after the rename to `scientific_name` /
`canonical_name`). -/
structure Species where
  key : Int
  scientific_name : Option String
  canonical_name : Option String
  family : Option String
  order : Option String
deriving DecidableEq, Repr

/-- A row of `result_df` after the key merge and the name-fallback loop. -/
structure MergedRow where
  audio_file_id : String
  key : Int
  confidence : Option ℚ
  detected_birds : List String
  scientific_name_class : Option String
  scientific_name_species : Option String
  canonical_name : Option String
  family : Option String
  order : Option String
  key_species : Option Int
  canonical_name_species : Option String
  family_species : Option String
  order_species : Option String
deriving DecidableEq, Repr

/-- A resolved record after the final name selection (lines 133–142):
`scientific_name_class`/`_species` are replaced by a single
`scientific_name`. -/
structure Resolved where
  audio_file_id : String
  key : Int
  confidence : Option ℚ
  detected_birds : List String
  scientific_name : Option String
  canonical_name : Option String
  family : Option String
  order : Option String
  key_species : Option Int
  canonical_name_species : Option String
  family_species : Option String
  order_species : Option String
deriving DecidableEq, Repr

/-- The left merge on `key` for a single classification row: one output row
per matching species, or a single row with empty species cells when no
species matches. -/
def key_merge_one (species : List Species) (c : Classification) : List MergedRow :=
  match species.filter (fun s => s.key == c.key) with
  | [] => [⟨c.audio_file_id, c.key, c.confidence, c.detected_birds, c.scientific_name,
           none, none, none, none, none, none, none, none⟩]
  | ms => ms.map (fun s =>
      ⟨c.audio_file_id, c.key, c.confidence, c.detected_birds, c.scientific_name,
       s.scientific_name, s.canonical_name, s.family, s.order, none, none, none, none⟩)

/-- `classifications_df.merge(species_df[merge_columns], on='key', how='left',
suffixes=('_class', '_species'))`. -/
def key_merge (species : List Species) (classifications : List Classification) :
    List MergedRow :=
  classifications.flatMap (key_merge_one species)

/-- The name-fallback loop (lines 103–131): rows whose
`scientific_name_species` cell is empty and whose classifier-reported name
is truthy and not `"Unknown"` take the first species whose
`scientific_name` or `canonical_name` equals that name, and its merge
columns are written into the `<col>_species` cells. -/
def fallback_one (species : List Species) (r : MergedRow) : MergedRow :=
  if r.scientific_name_species = none then
    match r.scientific_name_class with
    | some n =>
      if n ≠ "" ∧ n ≠ "Unknown" then
        match species.find? (fun s =>
            s.scientific_name == some n || s.canonical_name == some n) with
        | some s =>
          { r with key_species := some s.key,
                   scientific_name_species := s.scientific_name,
                   canonical_name_species := s.canonical_name,
                   family_species := s.family,
                   order_species := s.order }
        | none => r
      else r
    | none => r
  else r

/-- The final name selection (lines 133–142):
`scientific_name = scientific_name_species.fillna(scientific_name_class)`. -/
def name_select (r : MergedRow) : Resolved :=
  ⟨r.audio_file_id, r.key, r.confidence, r.detected_birds,
   (r.scientific_name_species).or r.scientific_name_class,
   r.canonical_name, r.family, r.order, r.key_species,
   r.canonical_name_species, r.family_species, r.order_species⟩

/-- The Entity Resolver of the spec: key merge, then name fallback, then
name selection (`fetch_data_from_mongodb` lines 88–142). -/
def entity_resolver (species : List Species) (classifications : List Classification) :
    List Resolved :=
  ((key_merge species classifications).map (fallback_one species)).map name_select

/-! ### Observation Aggregator (`fetch_data_from_mongodb`,
`src/scripts/generate_report.py` lines 144–218) -/

/-- A biological-attribute map attached to an observation. -/
abbrev BioMap := List (String × PyVal)

/-- An observation document; `biological_data = none` models a missing
(`NaN`) cell. -/
structure Observation where
  key : Int
  biological_data : Option BioMap
deriving DecidableEq, Repr

/-- An observation after name enrichment (line 155). -/
structure EnrichedObs where
  key : Int
  biological_data : Option BioMap
  scientific_name : Option String
deriving DecidableEq, Repr

/-- One row of `obs_by_key` (lines 160–165). -/
structure KeyAgg where
  key : Int
  observation_count : ℕ
  biological_data_list : List (Option BioMap)
deriving DecidableEq, Repr

/-- One row of `obs_by_name` (lines 180–184). -/
structure NameAgg where
  scientific_name : Option String
  observation_count : ℕ
  biological_data_list : List (Option BioMap)
deriving DecidableEq, Repr

/-- A resolved record augmented with the observation columns. -/
structure Enriched extends Resolved where
  observation_count : Option ℕ
  biological_data_list : Option (List (Option BioMap))
deriving DecidableEq, Repr

/-- `species_df.set_index('key')['scientific_name'].to_dict()` followed by
`.map`: the last species with the key wins in the dict; a missing key or a
missing name cell both map to `NaN`. -/
def key_to_name (species : List Species) (k : Int) : Option String :=
  ((species.filter (fun s => s.key == k)).getLast?).bind Species.scientific_name

/-- Lines 150–155: attach a `scientific_name` to every observation via the
key lookup. -/
def enrich_observations (species : List Species) (obs : List Observation) :
    List EnrichedObs :=
  obs.map (fun o => ⟨o.key, o.biological_data, key_to_name species o.key⟩)

/-- The key-aggregate row for key `k`: count and `biological_data` list of
the positive-key observations with that key, in input order. -/
def mkKeyAgg (eobs : List EnrichedObs) (k : Int) : KeyAgg :=
  let g := (eobs.filter (fun o => decide (0 < o.key))).filter (fun o => o.key == k)
  ⟨k, g.length, g.map (fun o => o.biological_data)⟩

/-- Lines 160–165: group the observations with `key > 0` by key, counting
rows and collecting their `biological_data` cells in group order. -/
def obs_by_key (eobs : List EnrichedObs) : List KeyAgg :=
  (dedupBy id ((eobs.filter (fun o => decide (0 < o.key))).map (fun o => o.key))).map
    (mkKeyAgg eobs)

/-- The name-aggregate row for name `n`. -/
def mkNameAgg (eobs : List EnrichedObs) (n : Option String) : NameAgg :=
  let g := (eobs.filter (fun o => o.scientific_name.isSome)).filter
    (fun o => o.scientific_name == n)
  ⟨n, g.length, g.map (fun o => o.biological_data)⟩

/-- Lines 176–184: group the observations that received a name by that
name. -/
def obs_by_name (eobs : List EnrichedObs) : List NameAgg :=
  (dedupBy id ((eobs.filter (fun o => o.scientific_name.isSome)).map
    (fun o => o.scientific_name))).map (mkNameAgg eobs)

/-- One row of the merge/combine step (lines 167–215): the key aggregate is
looked up by the row's `key`, the name aggregate by its resolved
`scientific_name`; the count falls back to the name aggregate only when the
key merge found nothing (lines 196–200).  In `combine_bio_data`
(lines 203–214) `data1` is `row.get(...) or []`; when the key merge found
no match the cell holds `NaN`, which is truthy in Python, so the function
returns it and the name-aggregate list is unreachable — the biological list
therefore comes from the key aggregate or stays empty. -/
def add_observation_row (byKey : List KeyAgg) (byName : List NameAgg) (r : Resolved) :
    Enriched :=
  let kAgg := byKey.find? (fun a => a.key == r.key)
  let nAgg := byName.find? (fun a => a.scientific_name == r.scientific_name)
  ⟨r,
   (kAgg.map (fun a => a.observation_count)).or (nAgg.map (fun a => a.observation_count)),
   kAgg.map (fun a => a.biological_data_list)⟩

/-- Lines 144–218: enrich the observations, build both aggregates, and
combine them onto every resolved record.  When there are no observations at
all, no columns are added (all cells empty). -/
def add_observation_data (resolved : List Resolved) (obs : List Observation)
    (species : List Species) : List Enriched :=
  if obs.isEmpty then resolved.map (fun r => ⟨r, none, none⟩)
  else
    resolved.map (add_observation_row
      (obs_by_key (enrich_observations species obs))
      (obs_by_name (enrich_observations species obs)))

/-! ### Biological Attribute Summarizer (`extract_biological_summary`,
`src/scripts/generate_report.py` lines 285–334) -/

/-- The per-key biological summary row: `key` plus the dynamic
`avg_<attribute>` and `most_common_<attribute>` fields, as association
lists. -/
structure BioSummary where
  key : Int
  avgs : List (String × ℚ)
  modes : List (String × PyVal)
deriving DecidableEq, Repr

/-- The concatenation of the non-empty `biological_data_list` cells of the
rows with key `k` (lines 297–302: `dropna()` then `extend`). -/
def rawPool (df : List Enriched) (k : Int) : List (Option BioMap) :=
  (df.filter (fun r => r.key == k)).flatMap (fun r => r.biological_data_list.getD [])

/-- The entries of a pool that are dicts (`isinstance(bio_data, dict)`). -/
def dictsIn (pool : List (Option BioMap)) : List BioMap :=
  pool.filterMap id

/-- The union of the attribute names over the dicts of a pool
(lines 308–311); Python iterates a `set`, the embedding fixes first-seen
order, which no claim depends on. -/
def propsIn (pool : List (Option BioMap)) : List String :=
  dedupBy id ((dictsIn pool).flatMap (fun m => m.map Prod.fst))

/-- The values collected for one attribute (lines 316–319): the value from
every dict that has the attribute, in pool order. -/
def valuesIn (pool : List (Option BioMap)) (p : String) : List PyVal :=
  (dictsIn pool).filterMap (fun m => m.lookup p)

/-- `max(set(values), key=values.count)` (line 329): a value of maximal
occurrence count; Python iterates a `set`, the embedding fixes first-seen
order with the first maximum winning. -/
def pyMode (values : List PyVal) : PyVal :=
  match dedupBy id values with
  | [] => PyVal.vnone
  | x :: xs => xs.foldl (fun best v =>
      if values.count best < values.count v then v else best) x

/-- The `avg_<p>` cell of a summary row (lines 322–326): Python skips `None`
values in the comprehension, and a parse failure of any remaining value
raises before `numeric_values` is bound. -/
def avgEntry (pool : List (Option BioMap)) (p : String) : Option ℚ :=
  let values := valuesIn pool p
  if values.isEmpty then none
  else
    let nonNone := values.filter (fun v => !(v == PyVal.vnone))
    if nonNone.all parsesOk then
      let nums := nonNone.filterMap pyFloat
      if nums.isEmpty then none
      else some (ratMean nums)
    else none

/-- The `most_common_<p>` cell of a summary row (lines 327–330): emitted
exactly when some non-`None` value fails to parse. -/
def modeEntry (pool : List (Option BioMap)) (p : String) : Option PyVal :=
  let values := valuesIn pool p
  if values.isEmpty then none
  else
    let nonNone := values.filter (fun v => !(v == PyVal.vnone))
    if nonNone.all parsesOk then none
    else some (pyMode values)

/-- The summary row of one key group (lines 307–332). -/
def summarizeOne (k : Int) (pool : List (Option BioMap)) : BioSummary :=
  ⟨k,
   (propsIn pool).filterMap (fun p => (avgEntry pool p).map (fun x => (p, x))),
   (propsIn pool).filterMap (fun p => (modeEntry pool p).map (fun x => (p, x)))⟩

/-- `extract_biological_summary`: one summary row per key whose pool is
non-empty (`if not bio_data_list: continue`, line 304). -/
def extract_biological_summary (df : List Enriched) : List BioSummary :=
  (dedupBy id (df.map (fun r => r.key))).filterMap (fun k =>
    let pool := rawPool df k
    if pool.isEmpty then none else some (summarizeOne k pool))

/-! ### Statistics Aggregator (`aggregate_statistics`,
`src/scripts/generate_report.py` lines 223–282) -/

/-- A row of the final statistics frame.  `bio` carries the columns merged
in from the biological summary (`none` when the left join found no row). -/
structure StatRow where
  key : Int
  scientific_name : Option String
  avg_confidence : Option ℚ
  max_confidence : Option ℚ
  min_confidence : Option ℚ
  classification_count : ℕ
  unique_audio_files : ℕ
  total_observations : ℕ
  bio : Option BioSummary
deriving DecidableEq, Repr

/-- One grouped row of the statistics frame for the pair `p`: mean/max/min
confidence (pandas `mean`/`max`/`min` skip `NaN` cells), record count,
distinct `audio_file_id` count, and the `NaN`-skipping sum of
`observation_count` (`0` when no cell is present, as in pandas). -/
def mkStatRow (rows : List Enriched) (p : Int × Option String) : StatRow :=
  let g := rows.filter (fun r => (r.key, r.scientific_name) == p)
  let confs := g.filterMap (fun r => r.confidence)
  StatRow.mk p.1 p.2
    (if confs.isEmpty then none else some (ratMean confs))
    (maxQ confs) (minQ confs) g.length
    (dedupBy id (g.map (fun r => r.audio_file_id))).length
    (g.filterMap (fun r => r.observation_count)).sum
    none

/-- The left merge of the biological summary onto a statistics row, on
`key` (`aggregate_statistics` lines 268–277). -/
def mergeBio (bioSum : List BioSummary) (s : StatRow) : StatRow :=
  { s with bio := bioSum.find? (fun b => b.key == s.key) }

/-- `aggregate_statistics`: group by `(key, scientific_name)` (pandas drops
rows whose name is `NaN` from the grouping), aggregate confidence and
counts, left-merge the biological summary on `key`, and sort by
`classification_count` descending. -/
def aggregate_statistics (df : List Enriched) : List StatRow :=
  if df.isEmpty then []
  else
    let rows := df.filter (fun r => r.scientific_name.isSome)
    let pairs := dedupBy id (rows.map (fun r => (r.key, r.scientific_name)))
    isort (fun a b => decide (b.classification_count ≤ a.classification_count))
      ((pairs.map (mkStatRow rows)).map (mergeBio (extract_biological_summary df)))

/-! ### Lemmas about `dedupBy` -/

theorem dedupByAux_sublist {α κ : Type} [DecidableEq κ] (f : α → κ) :
    ∀ (l : List α) (seen : List κ), List.Sublist (dedupByAux f seen l) l := by
  intro l
  induction l with
  | nil => intro seen; simp [dedupByAux]
  | cons a l ih =>
    intro seen
    rw [dedupByAux]
    split
    · exact List.Sublist.cons a (ih seen)
    · exact List.Sublist.cons₂ a (ih _)

theorem dedupBy_sublist {α κ : Type} [DecidableEq κ] (f : α → κ) (l : List α) :
    List.Sublist (dedupBy f l) l :=
  dedupByAux_sublist f l []

theorem mem_of_mem_dedupBy {α κ : Type} [DecidableEq κ] {f : α → κ} {l : List α} {a : α}
    (h : a ∈ dedupBy f l) : a ∈ l :=
  (dedupBy_sublist f l).subset h

theorem dedupByAux_keys {α κ : Type} [DecidableEq κ] (f : α → κ) :
    ∀ (l : List α) (seen : List κ),
      ((dedupByAux f seen l).map f).Nodup ∧ ∀ b ∈ dedupByAux f seen l, f b ∉ seen := by
  intro l
  induction l with
  | nil => intro seen; simp [dedupByAux]
  | cons a l ih =>
    intro seen
    rw [dedupByAux]
    split
    · exact ih seen
    · next hnot =>
      refine ⟨?_, ?_⟩
      · refine List.nodup_cons.mpr ⟨?_, (ih (f a :: seen)).1⟩
        intro hmem
        obtain ⟨b, hb, hfb⟩ := List.mem_map.mp hmem
        exact ((ih (f a :: seen)).2 b hb) (hfb ▸ List.mem_cons_self _ _)
      · intro b hb
        rcases List.mem_cons.mp hb with heq | hb'
        · rw [heq]; exact hnot
        · exact fun hs => ((ih (f a :: seen)).2 b hb') (List.mem_cons_of_mem _ hs)

theorem dedupBy_keys_nodup {α κ : Type} [DecidableEq κ] (f : α → κ) (l : List α) :
    ((dedupBy f l).map f).Nodup :=
  (dedupByAux_keys f l []).1

theorem dedupBy_id_nodup {α : Type} [DecidableEq α] (l : List α) :
    (dedupBy id l).Nodup := by
  have h := dedupBy_keys_nodup (id : α → α) l
  simpa using h

theorem dedupByAux_eq_self {α κ : Type} [DecidableEq κ] (f : α → κ) :
    ∀ (l : List α) (seen : List κ), (l.map f).Nodup → (∀ a ∈ l, f a ∉ seen) →
      dedupByAux f seen l = l := by
  intro l
  induction l with
  | nil => intro seen _ _; simp [dedupByAux]
  | cons a l ih =>
    intro seen hnd hdisj
    rw [dedupByAux]
    rw [List.map_cons, List.nodup_cons] at hnd
    split
    · next hmem => exact absurd hmem (hdisj a (List.mem_cons_self _ _))
    · refine congrArg (a :: ·) (ih (f a :: seen) hnd.2 ?_)
      intro b hb hmem
      rcases List.mem_cons.mp hmem with heq | hs
      · exact hnd.1 (heq ▸ List.mem_map_of_mem f hb)
      · exact hdisj b (List.mem_cons_of_mem _ hb) hs

theorem dedupBy_eq_self {α κ : Type} [DecidableEq κ] (f : α → κ) (l : List α)
    (h : (l.map f).Nodup) : dedupBy f l = l :=
  dedupByAux_eq_self f l [] h (by simp)

theorem mem_dedupByAux_id {α : Type} [DecidableEq α] :
    ∀ (l : List α) (seen : List α) (a : α),
      a ∈ dedupByAux id seen l ↔ a ∈ l ∧ a ∉ seen := by
  intro l
  induction l with
  | nil => intro seen a; simp [dedupByAux]
  | cons b l ih =>
    intro seen a
    rw [dedupByAux]
    simp only [id_eq]
    by_cases hb : b ∈ seen
    · rw [if_pos hb, ih]
      constructor
      · rintro ⟨ha, hs⟩; exact ⟨List.mem_cons_of_mem _ ha, hs⟩
      · rintro ⟨ha, hs⟩
        rcases List.mem_cons.mp ha with heq | ha'
        · exact absurd (heq ▸ hb) hs
        · exact ⟨ha', hs⟩
    · rw [if_neg hb]
      constructor
      · intro h
        rcases List.mem_cons.mp h with heq | h'
        · exact ⟨heq ▸ List.mem_cons_self _ _, heq ▸ hb⟩
        · obtain ⟨ha, hs⟩ := (ih _ a).mp h'
          exact ⟨List.mem_cons_of_mem _ ha, fun hm => hs (List.mem_cons_of_mem _ hm)⟩
      · rintro ⟨ha, hs⟩
        rcases List.mem_cons.mp ha with heq | ha'
        · exact heq ▸ List.mem_cons_self _ _
        · by_cases hab : a = b
          · exact hab ▸ List.mem_cons_self _ _
          · refine List.mem_cons_of_mem _ ((ih _ a).mpr ⟨ha', ?_⟩)
            intro hm
            rcases List.mem_cons.mp hm with h1 | h2
            · exact hab h1
            · exact hs h2

theorem mem_dedupBy_id {α : Type} [DecidableEq α] (l : List α) (a : α) :
    a ∈ dedupBy id l ↔ a ∈ l := by
  rw [dedupBy, mem_dedupByAux_id]; simp

theorem exists_dedupByAux {α κ : Type} [DecidableEq κ] (f : α → κ) :
    ∀ (l : List α) (seen : List κ) (a : α), a ∈ l → f a ∉ seen →
      ∃ b ∈ dedupByAux f seen l, f b = f a := by
  intro l
  induction l with
  | nil => intro seen a ha; exact absurd ha (by simp)
  | cons x l ih =>
    intro seen a ha hseen
    rw [dedupByAux]
    split
    · next hmem =>
      rcases List.mem_cons.mp ha with heq | ha'
      · exact absurd (heq ▸ hmem) hseen
      · exact ih seen a ha' hseen
    · rcases List.mem_cons.mp ha with heq | ha'
      · exact ⟨x, List.mem_cons_self _ _, (congrArg f heq).symm⟩
      · by_cases hfa : f a = f x
        · exact ⟨x, List.mem_cons_self _ _, hfa.symm⟩
        · obtain ⟨b, hb, hfb⟩ := ih (f x :: seen) a ha' (by
            intro hm
            rcases List.mem_cons.mp hm with h1 | h2
            · exact hfa h1
            · exact hseen h2)
          exact ⟨b, List.mem_cons_of_mem _ hb, hfb⟩

theorem exists_dedupBy {α κ : Type} [DecidableEq κ] (f : α → κ) (l : List α) (a : α)
    (ha : a ∈ l) : ∃ b ∈ dedupBy f l, f b = f a :=
  exists_dedupByAux f l [] a ha (by simp)

/-- In a sorted list, the first record of each key class (the one
`drop_duplicates` keeps) dominates every record of its class. -/
theorem dedupByAux_first_of_class {α κ : Type} [DecidableEq κ] (f : α → κ)
    (le : α → α → Bool) (hrefl : ∀ a, le a a = true) :
    ∀ (l : List α) (seen : List κ), l.Pairwise (fun a b => le a b = true) →
      ∀ r ∈ dedupByAux f seen l, ∀ s ∈ l, f s = f r → le r s = true := by
  intro l
  induction l with
  | nil => intro seen _ r hr; exact absurd hr (by simp [dedupByAux])
  | cons x l ih =>
    intro seen hsort r hr s hs hfs
    rw [dedupByAux] at hr
    rw [List.pairwise_cons] at hsort
    split at hr
    · next hmem =>
      rcases List.mem_cons.mp hs with heq | hs'
      · refine absurd ?_ ((dedupByAux_keys f l seen).2 r hr)
        rw [← hfs, heq]; exact hmem
      · exact ih seen hsort.2 r hr s hs' hfs
    · rcases List.mem_cons.mp hr with heq | hr'
      · rcases List.mem_cons.mp hs with heq2 | hs'
        · rw [heq, heq2]; exact hrefl x
        · rw [heq]; exact hsort.1 s hs'
      · rcases List.mem_cons.mp hs with heq2 | hs'
        · refine absurd ?_ ((dedupByAux_keys f l (f x :: seen)).2 r hr')
          rw [← hfs, heq2]; exact List.mem_cons_self _ _
        · exact ih (f x :: seen) hsort.2 r hr' s hs' hfs

theorem dedupBy_first_of_class {α κ : Type} [DecidableEq κ] (f : α → κ)
    (le : α → α → Bool) (hrefl : ∀ a, le a a = true) (l : List α)
    (hsort : l.Pairwise (fun a b => le a b = true)) :
    ∀ r ∈ dedupBy f l, ∀ s ∈ l, f s = f r → le r s = true :=
  dedupByAux_first_of_class f le hrefl l [] hsort

/-- `find?` on a keyed list built over deduplicated keys: lookup of `k`
returns the row built from `k`, or nothing when `k` never occurs. -/
theorem find_filterMap_dedupByAux {κ β : Type} [DecidableEq κ] [BEq κ] [LawfulBEq κ]
    (mk : κ → Option β) (key : β → κ) (hmk : ∀ k b, mk k = some b → key b = k) :
    ∀ (xs : List κ) (seen : List κ) (k : κ),
      ((dedupByAux id seen xs).filterMap mk).find? (fun b => key b == k) =
        if k ∈ xs ∧ k ∉ seen then mk k else none := by
  intro xs
  induction xs with
  | nil => intro seen k; simp [dedupByAux]
  | cons x xs ih =>
    intro seen k
    rw [dedupByAux]
    simp only [id_eq]
    by_cases hx : x ∈ seen
    · rw [if_pos hx, ih seen k]
      by_cases hkx : k = x
      · rw [hkx]; simp [hx]
      · simp [List.mem_cons, hkx]
    · rw [if_neg hx]
      cases hmkx : mk x with
      | none =>
        simp only [List.filterMap_cons, hmkx]
        rw [ih (x :: seen) k]
        by_cases hkx : k = x
        · rw [hkx]; simp [hmkx, hx, List.mem_cons]
        · simp [List.mem_cons, hkx]
      | some b =>
        simp only [List.filterMap_cons, hmkx]
        have hkey : key b = x := hmk x b hmkx
        by_cases hkx : k = x
        · have hbeq : (key b == k) = true := beq_iff_eq.mpr (by rw [hkey, hkx])
          simp only [List.find?_cons, hbeq]
          rw [hkx]
          simp [hmkx, hx]
        · have hbeq : (key b == k) = false :=
            beq_eq_false_iff_ne.mpr (by rw [hkey]; exact fun h => hkx h.symm)
          simp only [List.find?_cons, hbeq]
          rw [ih (x :: seen) k]
          simp [List.mem_cons, hkx]

theorem find_filterMap_dedupBy {κ β : Type} [DecidableEq κ] [BEq κ] [LawfulBEq κ]
    (mk : κ → Option β) (key : β → κ) (hmk : ∀ k b, mk k = some b → key b = k)
    (xs : List κ) (k : κ) :
    ((dedupBy id xs).filterMap mk).find? (fun b => key b == k) =
      if k ∈ xs then mk k else none := by
  rw [dedupBy, find_filterMap_dedupByAux mk key hmk xs [] k]
  simp

theorem find_map_dedupBy {κ β : Type} [DecidableEq κ] [BEq κ] [LawfulBEq κ]
    (mk : κ → β) (key : β → κ) (hmk : ∀ k, key (mk k) = k)
    (xs : List κ) (k : κ) :
    ((dedupBy id xs).map mk).find? (fun b => key b == k) =
      if k ∈ xs then some (mk k) else none := by
  have h := find_filterMap_dedupBy (fun k => some (mk k)) key
    (fun k b hb => by cases hb; exact hmk k) xs k
  have hcomp : (fun k => some (mk k)) = some ∘ mk := rfl
  rw [hcomp, List.filterMap_eq_map] at h
  exact h

/-! ### Lemmas about `insertLe` and `isort` -/

theorem insertLe_perm {α : Type} (le : α → α → Bool) (x : α) :
    ∀ l : List α, (insertLe le x l).Perm (x :: l) := by
  intro l
  induction l with
  | nil => simp [insertLe]
  | cons y ys ih =>
    rw [insertLe]
    split
    · exact List.Perm.refl _
    · exact (ih.cons y).trans (List.Perm.swap x y ys)

theorem isort_perm {α : Type} (le : α → α → Bool) :
    ∀ l : List α, (isort le l).Perm l := by
  intro l
  induction l with
  | nil => simp [isort]
  | cons x xs ih => exact (insertLe_perm le x (isort le xs)).trans (ih.cons x)

theorem mem_isort {α : Type} (le : α → α → Bool) (l : List α) (a : α) :
    a ∈ isort le l ↔ a ∈ l :=
  (isort_perm le l).mem_iff

theorem pairwise_insertLe {α : Type} (le : α → α → Bool)
    (htrans : ∀ a b c, le a b = true → le b c = true → le a c = true)
    (htot : ∀ a b, le a b = false → le b a = true) (x : α) :
    ∀ l : List α, l.Pairwise (fun a b => le a b = true) →
      (insertLe le x l).Pairwise (fun a b => le a b = true) := by
  intro l
  induction l with
  | nil => intro _; simp [insertLe]
  | cons y ys ih =>
    intro h
    rw [List.pairwise_cons] at h
    rw [insertLe]
    split
    · next hxy =>
      refine List.pairwise_cons.mpr ⟨?_, List.pairwise_cons.mpr h⟩
      intro z hz
      rcases List.mem_cons.mp hz with heq | hz'
      · rw [heq]; exact hxy
      · exact htrans x y z hxy (h.1 z hz')
    · next hxy =>
      refine List.pairwise_cons.mpr ⟨?_, ih h.2⟩
      intro z hz
      have hz' := (insertLe_perm le x ys).mem_iff.mp hz
      rcases List.mem_cons.mp hz' with heq | hz''
      · rw [heq]; exact htot x y (Bool.eq_false_iff.mpr hxy)
      · exact h.1 z hz''

theorem isort_pairwise {α : Type} (le : α → α → Bool)
    (htrans : ∀ a b c, le a b = true → le b c = true → le a c = true)
    (htot : ∀ a b, le a b = false → le b a = true) :
    ∀ l : List α, (isort le l).Pairwise (fun a b => le a b = true) := by
  intro l
  induction l with
  | nil => simp [isort]
  | cons x xs ih => exact pairwise_insertLe le htrans htot x _ ih

theorem isort_eq_self {α : Type} (le : α → α → Bool) :
    ∀ l : List α, l.Pairwise (fun a b => le a b = true) → isort le l = l := by
  intro l
  induction l with
  | nil => intro _; rfl
  | cons x xs ih =>
    intro h
    rw [List.pairwise_cons] at h
    rw [isort, ih h.2]
    cases xs with
    | nil => rfl
    | cons y ys =>
      rw [insertLe, if_pos (h.1 y (List.mem_cons_self _ _))]

/-! ### Properties of `clean_classifications` -/

theorem confGeB_refl (a : Classification) : confGeB a a = true := by
  cases h : a.confidence <;> simp [confGeB, h]

theorem confGeB_trans (a b c : Classification) (hab : confGeB a b = true)
    (hbc : confGeB b c = true) : confGeB a c = true := by
  cases ha : a.confidence <;> cases hb : b.confidence <;> cases hc : c.confidence <;>
    simp_all [confGeB, ha, hb, hc]
  exact le_trans hbc hab

theorem confGeB_total (a b : Classification) (h : confGeB a b = false) :
    confGeB b a = true := by
  cases ha : a.confidence <;> cases hb : b.confidence <;>
    simp_all [confGeB, ha, hb]
  exact le_of_lt h

theorem passesB_iff (t : ℚ) (c : Classification) :
    passesB t c = true ↔ ∃ q, c.confidence = some q ∧ t ≤ q := by
  cases h : c.confidence <;> simp [passesB, h]

theorem clean_mem {l : List Classification} {t : ℚ} {r : Classification}
    (h : r ∈ clean_classifications l t) : r ∈ l ∧ passesB t r = true := by
  unfold clean_classifications at h
  have h1 := mem_of_mem_dedupBy h
  rw [mem_isort] at h1
  exact ⟨List.mem_of_mem_filter h1, List.of_mem_filter h1⟩

theorem clean_sorted (l : List Classification) (t : ℚ) :
    (clean_classifications l t).Pairwise (fun a b => confGeB a b = true) :=
  (isort_pairwise confGeB confGeB_trans confGeB_total _).sublist
    (dedupBy_sublist pairKey _)

theorem clean_pair_nodup (l : List Classification) (t : ℚ) :
    ((clean_classifications l t).map pairKey).Nodup :=
  dedupBy_keys_nodup pairKey _

/-- Claim C5: for every list of raw classification records and every
threshold, `clean_classifications` returns exactly the records with
`confidence >= threshold`, deduplicated so that at most one record per
`(audio_file_id, key)` pair survives, the survivor being one with
the highest confidence in its pair; in particular the `0.9`/`0.6`
duplicate example keeps only the `0.9` record. -/
theorem C5_normalizer_contract : ∀ (l : List Classification) (t : ℚ),
    (∀ r ∈ clean_classifications l t, r ∈ l ∧ ∃ q, r.confidence = some q ∧ t ≤ q) ∧
    ((clean_classifications l t).map pairKey).Nodup ∧
    (∀ r ∈ clean_classifications l t, ∀ s ∈ l, pairKey s = pairKey r →
      ∀ qs, s.confidence = some qs → t ≤ qs →
        ∃ qr, r.confidence = some qr ∧ qs ≤ qr) ∧
    (∀ s ∈ l, (∃ q, s.confidence = some q ∧ t ≤ q) →
      ∃ r ∈ clean_classifications l t, pairKey r = pairKey s) ∧
    clean_classifications
      [⟨"a1", 10, some (mkRat 9 10), none, []⟩, ⟨"a1", 10, some (mkRat 6 10), none, []⟩] (mkRat 1 2) =
      [⟨"a1", 10, some (mkRat 9 10), none, []⟩] := by
  intro l t
  refine ⟨?_, clean_pair_nodup l t, ?_, ?_, by decide⟩
  · intro r hr
    obtain ⟨hmem, hpass⟩ := clean_mem hr
    exact ⟨hmem, (passesB_iff t r).mp hpass⟩
  · intro r hr s hs hpair qs hqs hts
    have hspass : passesB t s = true := (passesB_iff t s).mpr ⟨qs, hqs, hts⟩
    have hs' : s ∈ isort confGeB (l.filter (passesB t)) :=
      (mem_isort _ _ s).mpr (List.mem_filter.mpr ⟨hs, hspass⟩)
    have hge : confGeB r s = true :=
      dedupBy_first_of_class pairKey confGeB confGeB_refl _
        (isort_pairwise confGeB confGeB_trans confGeB_total _) r hr s hs' hpair
    obtain ⟨qr, hqr, _⟩ := (passesB_iff t r).mp (clean_mem hr).2
    refine ⟨qr, hqr, ?_⟩
    simpa [confGeB, hqr, hqs] using hge
  · intro s hs hex
    have hspass : passesB t s = true := (passesB_iff t s).mpr hex
    have hs' : s ∈ isort confGeB (l.filter (passesB t)) :=
      (mem_isort _ _ s).mpr (List.mem_filter.mpr ⟨hs, hspass⟩)
    exact exists_dedupBy pairKey _ s hs'

/-- Claim C5 witness: the survivor-existence part of the contract applied to
the concrete duplicate example. -/
theorem C5_witness :
    ∃ r ∈ clean_classifications
      [⟨"a1", 10, some (mkRat 9 10), none, []⟩, ⟨"a1", 10, some (mkRat 6 10), none, []⟩] (mkRat 1 2),
      pairKey r = pairKey ⟨"a1", 10, some (mkRat 6 10), none, []⟩ :=
  (C5_normalizer_contract
      [⟨"a1", 10, some (mkRat 9 10), none, []⟩, ⟨"a1", 10, some (mkRat 6 10), none, []⟩]
      (mkRat 1 2)).2.2.2.1
    ⟨"a1", 10, some (mkRat 6 10), none, []⟩ (by decide) ⟨mkRat 6 10, rfl, by decide⟩

/-- Claim C8: the Record Normalizer is idempotent — applying
`clean_classifications` a second time (with the same threshold) to its own
output returns that output unchanged. -/
theorem C8_normalizer_idempotent :
    ∀ (l : List Classification) (t : ℚ),
      clean_classifications (clean_classifications l t) t = clean_classifications l t := by
  intro l t
  have hpass : (clean_classifications l t).filter (passesB t) = clean_classifications l t :=
    List.filter_eq_self.mpr (fun r hr => (clean_mem hr).2)
  have hsort : isort confGeB (clean_classifications l t) = clean_classifications l t :=
    isort_eq_self _ _ (clean_sorted l t)
  have hdedup : dedupBy pairKey (clean_classifications l t) = clean_classifications l t :=
    dedupBy_eq_self _ _ (clean_pair_nodup l t)
  calc clean_classifications (clean_classifications l t) t
      = dedupBy pairKey (isort confGeB ((clean_classifications l t).filter (passesB t))) := rfl
    _ = clean_classifications l t := by rw [hpass, hsort, hdedup]

/-- Claim C6 counterexample: a classification record missing its
`confidence` field is not retained at threshold `0.0` — the `NaN` cell fails
the `>=` filter and the record is dropped, it is not defaulted to `0.0`. -/
theorem C6_counterexample :
    ¬ ((⟨"a1", 1, none, none, []⟩ : Classification) ∈
        clean_classifications
          [⟨"a1", 1, none, none, []⟩, ⟨"a2", 2, some (mkRat 9 10), none, []⟩] 0) := by
  decide

/-- Claim C6 (amended): a classification record missing its `confidence`
field does not fail normalization, but it is dropped at every threshold
(its `NaN` confidence fails the `>=` comparison) instead of degrading to a
default of `0.0`; every record the normalizer returns carries a present
confidence value. -/
theorem C6_amended_missing_confidence_dropped :
    (∀ (l : List Classification) (t : ℚ) (r : Classification),
      r ∈ clean_classifications l t → r.confidence ≠ none) ∧
    clean_classifications
      [⟨"a1", 1, none, none, []⟩, ⟨"a2", 2, some (mkRat 9 10), none, []⟩] 0 =
      [⟨"a2", 2, some (mkRat 9 10), none, []⟩] := by
  constructor
  · intro l t r hr
    obtain ⟨q, hq, _⟩ := (passesB_iff t r).mp (clean_mem hr).2
    simp [hq]
  · decide

/-- Claim C6 witness: the amended theorem applied to a concrete run. -/
theorem C6_witness :
    (⟨"a2", 2, some (mkRat 9 10), none, []⟩ : Classification).confidence ≠ none :=
  C6_amended_missing_confidence_dropped.1
    [⟨"a1", 1, none, none, []⟩, ⟨"a2", 2, some (mkRat 9 10), none, []⟩] 0
    ⟨"a2", 2, some (mkRat 9 10), none, []⟩ (by decide)

/-! ### Properties of `filter_species_fuzzy` -/

theorem scoreGe_trans (a b c : String × ℚ) (hab : decide (b.2 ≤ a.2) = true)
    (hbc : decide (c.2 ≤ b.2) = true) : decide (c.2 ≤ a.2) = true := by
  simp only [decide_eq_true_eq] at *
  exact le_trans hbc hab

theorem scoreGe_total (a b : String × ℚ) (h : decide (b.2 ≤ a.2) = false) :
    decide (a.2 ≤ b.2) = true := by
  simp only [decide_eq_false_iff_not, decide_eq_true_eq] at *
  exact le_of_not_le h

/-- Claim C7 counterexample: with six distinct names all scoring 100
against the query, the fuzzy filter returns only five of them (the
underlying `process.extract` call keeps its default `limit=5`), so the
output is not the full qualifying subset. -/
theorem C7_counterexample :
    filter_species_fuzzy ["aa", "ab", "ac", "ad", "ae", "af"] "a" 70 ≠
      (["aa", "ab", "ac", "ad", "ae", "af"].filter
        (fun s => decide ((70 : ℚ) ≤ partRatio "a" s))) ∧
    (70 : ℚ) ≤ partRatio "a" "af" ∧
    "af" ∉ filter_species_fuzzy ["aa", "ab", "ac", "ad", "ae", "af"] "a" 70 := by
  refine ⟨by decide, by decide, by decide⟩

/-- Claim C7 (amended): for every list of species names and cutoff, an empty
query returns the input unchanged; for a non-empty query the filter returns
at most 5 names (the rapidfuzz `process.extract` default limit), each drawn
from the input with partial-ratio score at least the cutoff, and whenever at
most 5 names qualify it returns exactly the qualifying subset (as a
permutation, ordered by score). -/
theorem C7_amended_fuzzy_filter :
    ∀ (l : List String) (q : String) (c : ℚ),
      (q = "" → filter_species_fuzzy l q c = l) ∧
      (q ≠ "" →
        (filter_species_fuzzy l q c).length ≤ 5 ∧
        (∀ s ∈ filter_species_fuzzy l q c, s ∈ l ∧ c ≤ partRatio q s) ∧
        ((l.filter (fun s => decide (c ≤ partRatio q s))).length ≤ 5 →
          (filter_species_fuzzy l q c).Perm
            (l.filter (fun s => decide (c ≤ partRatio q s))))) := by
  intro l q c
  constructor
  · intro hq
    rw [filter_species_fuzzy, if_pos hq]
  · intro hq
    rw [filter_species_fuzzy, if_neg hq, processExtract]
    refine ⟨?_, ?_, ?_⟩
    · rw [List.length_map]
      exact List.length_take_le _ _
    · intro s hs
      obtain ⟨pr, hpr, hfst⟩ := List.mem_map.mp hs
      have h1 : pr ∈ isort (fun p q' => decide (q'.2 ≤ p.2))
          ((l.map (fun s => (s, partRatio q s))).filter (fun p => decide (c ≤ p.2))) :=
        List.mem_of_mem_take hpr
      have h2 := (mem_isort _ _ pr).mp h1
      have h3 := List.mem_of_mem_filter h2
      have h4 := List.of_mem_filter h2
      obtain ⟨x, hx, hpx⟩ := List.mem_map.mp h3
      have hsx : s = x := by rw [← hfst, ← hpx]
      subst hsx
      refine ⟨hx, ?_⟩
      have : c ≤ pr.2 := by simpa using h4
      rwa [← hpx] at this
    · intro hlen
      have hqual : (l.map (fun s => (s, partRatio q s))).filter (fun p => decide (c ≤ p.2)) =
          (l.filter (fun s => decide (c ≤ partRatio q s))).map
            (fun s => (s, partRatio q s)) := by
        rw [List.filter_map]; rfl
      rw [hqual]
      have hlen2 : ((l.filter (fun s => decide (c ≤ partRatio q s))).map
          (fun s => (s, partRatio q s))).length ≤ 5 := by
        rw [List.length_map]; exact hlen
      have hsortlen : (isort (fun p q' => decide (q'.2 ≤ p.2))
          ((l.filter (fun s => decide (c ≤ partRatio q s))).map
            (fun s => (s, partRatio q s)))).length ≤ 5 := by
        rw [(isort_perm _ _).length_eq]; exact hlen2
      rw [List.take_of_length_le hsortlen]
      have hperm := (isort_perm (fun (p q' : String × ℚ) => decide (q'.2 ≤ p.2))
        ((l.filter (fun s => decide (c ≤ partRatio q s))).map
          (fun s => (s, partRatio q s)))).map Prod.fst
      refine hperm.trans ?_
      rw [List.map_map]
      have hcomp : (Prod.fst ∘ fun s : String => (s, partRatio q s)) = fun s => s := rfl
      rw [hcomp, List.map_id']

/-- Claim C7 witness: the empty-query clause of the amended theorem at a
concrete input. -/
theorem C7_witness : filter_species_fuzzy ["Parus major"] "" 70 = ["Parus major"] :=
  (C7_amended_fuzzy_filter ["Parus major"] "" 70).1 rfl

/-! ### Properties of the Entity Resolver -/

/-- The classification-side fields a resolved record carries through. -/
def classFieldsC (c : Classification) : String × Int × Option ℚ × List String :=
  (c.audio_file_id, c.key, c.confidence, c.detected_birds)

def classFieldsM (r : MergedRow) : String × Int × Option ℚ × List String :=
  (r.audio_file_id, r.key, r.confidence, r.detected_birds)

def classFieldsR (r : Resolved) : String × Int × Option ℚ × List String :=
  (r.audio_file_id, r.key, r.confidence, r.detected_birds)

theorem species_filter_le_one (sp : List Species) (h : (sp.map Species.key).Nodup)
    (k : Int) : (sp.filter (fun s => s.key == k)).length ≤ 1 := by
  induction sp with
  | nil => simp
  | cons s rest ih =>
    rw [List.map_cons, List.nodup_cons] at h
    by_cases hs : s.key = k
    · have hrest : rest.filter (fun s' => s'.key == k) = [] :=
        List.filter_eq_nil_iff.mpr (fun x hx => by
          simp only [beq_iff_eq]
          intro hxk
          exact h.1 (List.mem_map.mpr ⟨x, hx, by rw [hxk, hs]⟩))
      simp [List.filter_cons, hs, hrest]
    · have hsb : (s.key == k) = false := by simp [hs]
      simp only [List.filter_cons, hsb, Bool.false_eq_true, if_false]
      exact ih h.2

theorem key_merge_one_fields (sp : List Species) (h : (sp.map Species.key).Nodup)
    (c : Classification) :
    (key_merge_one sp c).map classFieldsM = [classFieldsC c] := by
  cases hf : sp.filter (fun s => s.key == c.key) with
  | nil => simp [key_merge_one, hf, classFieldsM, classFieldsC]
  | cons s tl =>
    have hlen := species_filter_le_one sp h c.key
    rw [hf] at hlen
    have htl : tl = [] := by
      rw [List.length_cons] at hlen
      exact List.eq_nil_of_length_eq_zero (Nat.le_zero.mp (Nat.le_of_succ_le_succ hlen))
    subst htl
    simp [key_merge_one, hf, classFieldsM, classFieldsC]

theorem key_merge_fields (sp : List Species) (h : (sp.map Species.key).Nodup)
    (cls : List Classification) :
    (key_merge sp cls).map classFieldsM = cls.map classFieldsC := by
  induction cls with
  | nil => rfl
  | cons c cls ih =>
    simp only [key_merge, List.flatMap_cons, List.map_append, List.map_cons]
    rw [← key_merge]
    rw [ih, key_merge_one_fields sp h c]
    rfl

theorem resolver_row_fields (sp : List Species) (r : MergedRow) :
    classFieldsR (name_select (fallback_one sp r)) = classFieldsM r := by
  simp only [fallback_one, name_select, classFieldsR, classFieldsM]
  repeat' split
  all_goals rfl

/-- Claim C1: for every list of classification records and every species
reference list whose keys are pairwise distinct, the Entity Resolver emits
exactly one resolved record per input classification — none dropped, none
duplicated (left-outer-join semantics) — and the `i`-th output carries the
`i`-th input's classification fields, also when neither the key nor the
name matches any species. -/
theorem C1_resolver_left_join :
    ∀ (sp : List Species) (cls : List Classification),
      (sp.map Species.key).Nodup →
      (entity_resolver sp cls).length = cls.length ∧
      (entity_resolver sp cls).map classFieldsR = cls.map classFieldsC := by
  intro sp cls h
  have hmap : (entity_resolver sp cls).map classFieldsR = cls.map classFieldsC := by
    rw [entity_resolver, List.map_map, List.map_map]
    have hfun : ((classFieldsR ∘ name_select) ∘ fallback_one sp) = classFieldsM :=
      funext (resolver_row_fields sp)
    rw [hfun, key_merge_fields sp h cls]
  refine ⟨?_, hmap⟩
  have hlen := congrArg List.length hmap
  simpa using hlen

/-- Claim C1 witness: the resolver applied to one species and one
unmatched-key classification. -/
theorem C1_witness :
    (entity_resolver [⟨10, some "Parus major", none, none, none⟩]
        [⟨"a1", 0, some (mkRat 9 10), some "Parus major", []⟩]).length =
      ([⟨"a1", 0, some (mkRat 9 10), some "Parus major", []⟩] :
        List Classification).length ∧
    (entity_resolver [⟨10, some "Parus major", none, none, none⟩]
        [⟨"a1", 0, some (mkRat 9 10), some "Parus major", []⟩]).map classFieldsR =
      ([⟨"a1", 0, some (mkRat 9 10), some "Parus major", []⟩] :
        List Classification).map classFieldsC :=
  C1_resolver_left_join [⟨10, some "Parus major", none, none, none⟩]
    [⟨"a1", 0, some (mkRat 9 10), some "Parus major", []⟩] (by decide)

/-- Claim C2 counterexample: for species `[{key: 10, scientific_name:
"Parus major"}]` and classification `{key: 0, scientific_name: "Parus
major"}`, the resolved record's `key` is still `0`, not `10` — the fallback
loop writes the matched key into the fresh `key_species` column
(`result_df.loc[idx, f'{col}_species']` with `col = 'key'`), never into
`key`. -/
theorem C2_counterexample :
    (entity_resolver [⟨10, some "Parus major", none, none, none⟩]
        [⟨"a1", 0, some (mkRat 9 10), some "Parus major", []⟩]).map Resolved.key =
      [0] ∧ (0 : Int) ≠ 10 :=
  ⟨by decide, by decide⟩

/-- Claim C2 (amended): on species `[{key: 10, scientific_name: "Parus
major"}]` and classification `{key: 0, scientific_name: "Parus major"}`,
the name fallback fires and copies the species attributes into the
`*_species` cells — in particular `key_species = 10` and the resolved
`scientific_name = "Parus major"` — while the record's own `key` remains
`0`. -/
theorem C2_amended_fallback_key_species :
    entity_resolver [⟨10, some "Parus major", none, none, none⟩]
        [⟨"a1", 0, some (mkRat 9 10), some "Parus major", []⟩] =
      [⟨"a1", 0, some (mkRat 9 10), [], some "Parus major", none, none, none,
        some 10, none, none, none⟩] := by
  decide

/-! ### Properties of the Observation Aggregator -/

theorem mem_map_key_iff {α κ : Type} [BEq κ] [LawfulBEq κ] (l : List α) (f : α → κ) (k : κ) :
    k ∈ l.map f ↔ l.filter (fun a => f a == k) ≠ [] := by
  constructor
  · intro hm
    obtain ⟨a, ha, hfa⟩ := List.mem_map.mp hm
    exact List.ne_nil_of_mem (List.mem_filter.mpr ⟨ha, by simp [hfa]⟩)
  · intro hne
    obtain ⟨a, ha⟩ := List.exists_mem_of_ne_nil _ hne
    obtain ⟨hal, hak⟩ := List.mem_filter.mp ha
    exact List.mem_map.mpr ⟨a, hal, by simpa using hak⟩

/-- The `obs_by_key` left merge: looking up a key returns the key-aggregate
row exactly when some positive-key observation carries that key. -/
theorem obs_by_key_find (eobs : List EnrichedObs) (k : Int) :
    (obs_by_key eobs).find? (fun a => a.key == k) =
      (if ((eobs.filter (fun o => decide (0 < o.key))).filter
            (fun o => o.key == k)) = [] then none
       else some (mkKeyAgg eobs k)) := by
  rw [obs_by_key]
  rw [find_map_dedupBy (mkKeyAgg eobs) KeyAgg.key (fun _ => rfl)
    ((eobs.filter (fun o => decide (0 < o.key))).map (fun o => o.key)) k]
  by_cases hg : ((eobs.filter (fun o => decide (0 < o.key))).filter
      (fun o => o.key == k)) = []
  · rw [if_neg (fun hk => (mem_map_key_iff _ _ _).mp hk hg), if_pos hg]
  · rw [if_pos ((mem_map_key_iff _ _ _).mpr hg), if_neg hg]

/-- The `obs_by_name` left merge: looking up a name returns the
name-aggregate row exactly when some name-enriched observation carries that
name. -/
theorem obs_by_name_find (eobs : List EnrichedObs) (n : Option String) :
    (obs_by_name eobs).find? (fun a => a.scientific_name == n) =
      (if ((eobs.filter (fun o => o.scientific_name.isSome)).filter
            (fun o => o.scientific_name == n)) = [] then none
       else some (mkNameAgg eobs n)) := by
  rw [obs_by_name]
  rw [find_map_dedupBy (mkNameAgg eobs) NameAgg.scientific_name (fun _ => rfl)
    ((eobs.filter (fun o => o.scientific_name.isSome)).map
      (fun o => o.scientific_name)) n]
  by_cases hg : ((eobs.filter (fun o => o.scientific_name.isSome)).filter
      (fun o => o.scientific_name == n)) = []
  · rw [if_neg (fun hk => (mem_map_key_iff _ _ _).mp hk hg), if_pos hg]
  · rw [if_pos ((mem_map_key_iff _ _ _).mpr hg), if_neg hg]

/-- Claim C3: for every resolved record after observation aggregation, its
`observation_count` comes from exactly one of the two aggregation paths: it
equals the key-aggregate count (the number of positive-key observations
sharing its key) when that aggregate exists, otherwise the name-aggregate
count for its `scientific_name`, and it is absent when neither matches; a
record that received a key-aggregate count is never additionally combined
with the name-aggregate. -/
theorem C3_observation_count_single_path :
    ∀ (rs : List Resolved) (os : List Observation) (sp : List Species),
      ∀ e ∈ add_observation_data rs os sp,
        e.observation_count =
          (if ((enrich_observations sp os).filter (fun o => decide (0 < o.key))).filter
              (fun o => o.key == e.key) ≠ [] then
            some ((((enrich_observations sp os).filter (fun o => decide (0 < o.key))).filter
              (fun o => o.key == e.key)).length)
          else if ((enrich_observations sp os).filter
              (fun o => o.scientific_name.isSome)).filter
              (fun o => o.scientific_name == e.scientific_name) ≠ [] then
            some ((((enrich_observations sp os).filter
              (fun o => o.scientific_name.isSome)).filter
              (fun o => o.scientific_name == e.scientific_name)).length)
          else none) := by
  intro rs os sp e he
  rw [add_observation_data] at he
  split at he
  · next hos =>
    obtain ⟨r, hr, heq⟩ := List.mem_map.mp he
    subst heq
    have hos' : os = [] := List.isEmpty_iff.mp hos
    subst hos'
    simp [enrich_observations]
  · next hos =>
    obtain ⟨r, hr, heq⟩ := List.mem_map.mp he
    subst heq
    simp only [add_observation_row]
    rw [obs_by_key_find (enrich_observations sp os) r.key,
      obs_by_name_find (enrich_observations sp os) r.scientific_name]
    by_cases hg : ((enrich_observations sp os).filter (fun o => decide (0 < o.key))).filter
        (fun o => o.key == r.key) = []
    · rw [if_pos hg]
      by_cases hg' : ((enrich_observations sp os).filter
          (fun o => o.scientific_name.isSome)).filter
          (fun o => o.scientific_name == r.scientific_name) = []
      · rw [if_pos hg', if_neg (not_not_intro hg), if_neg (not_not_intro hg')]
        rfl
      · rw [if_neg hg', if_neg (not_not_intro hg), if_pos hg']
        rfl
    · rw [if_neg hg, if_pos hg]
      rfl

/-- Claim C3 witness: one resolved record with key 10 and one observation
with key 10 — the key-aggregate path yields `observation_count = 1`. -/
theorem C3_witness :
    (⟨⟨"a1", 10, some (mkRat 9 10), [], some "Parus major", none, none, none,
        none, none, none, none⟩, some 1,
      some [some [("body_size_cm", PyVal.vnum 12)]]⟩ : Enriched) ∈
      add_observation_data
        [⟨"a1", 10, some (mkRat 9 10), [], some "Parus major", none, none, none,
          none, none, none, none⟩]
        [⟨10, some [("body_size_cm", PyVal.vnum 12)]⟩]
        [⟨10, some "Parus major", none, none, none⟩] ∧
    (⟨⟨"a1", 10, some (mkRat 9 10), [], some "Parus major", none, none, none,
        none, none, none, none⟩, some 1,
      some [some [("body_size_cm", PyVal.vnum 12)]]⟩ : Enriched).observation_count =
      some 1 :=
  ⟨by decide,
   C3_observation_count_single_path
    [⟨"a1", 10, some (mkRat 9 10), [], some "Parus major", none, none, none,
      none, none, none, none⟩]
    [⟨10, some [("body_size_cm", PyVal.vnum 12)]⟩]
    [⟨10, some "Parus major", none, none, none⟩]
    ⟨⟨"a1", 10, some (mkRat 9 10), [], some "Parus major", none, none, none,
        none, none, none, none⟩, some 1,
      some [some [("body_size_cm", PyVal.vnum 12)]]⟩ (by decide)⟩

/-! ### Properties of the Biological Attribute Summarizer -/

theorem lookup_keyed_filterMap {β : Type} (props : List String) (g : String → Option β)
    (p : String) (h : props.Nodup) :
    (props.filterMap (fun q => (g q).map (fun b => (q, b)))).lookup p =
      if p ∈ props then g p else none := by
  induction props with
  | nil => simp
  | cons q rest ih =>
    rw [List.nodup_cons] at h
    cases hg : g q with
    | none =>
      simp only [List.filterMap_cons, hg, Option.map_none']
      rw [ih h.2]
      by_cases hpq : p = q
      · subst hpq
        simp [h.1, hg]
      · simp [hpq]
    | some b =>
      simp only [List.filterMap_cons, hg, Option.map_some']
      by_cases hpq : p = q
      · subst hpq
        simp [List.lookup, hg]
      · have hbeq : (p == q) = false := beq_eq_false_iff_ne.mpr hpq
        simp only [List.lookup, hbeq]
        rw [ih h.2]
        simp [hpq]

theorem foldl_argmax (values : List PyVal) :
    ∀ (xs : List PyVal) (b : PyVal),
      (xs.foldl (fun best v => if values.count best < values.count v then v else best) b = b ∨
        xs.foldl (fun best v => if values.count best < values.count v then v else best) b ∈ xs) ∧
      values.count b ≤ values.count
        (xs.foldl (fun best v => if values.count best < values.count v then v else best) b) ∧
      ∀ y ∈ xs, values.count y ≤ values.count
        (xs.foldl (fun best v => if values.count best < values.count v then v else best) b) := by
  intro xs
  induction xs with
  | nil => intro b; exact ⟨Or.inl rfl, le_refl _, by simp⟩
  | cons v xs ih =>
    intro b
    rw [List.foldl_cons]
    obtain ⟨hmem, hb, hall⟩ :=
      ih (if values.count b < values.count v then v else b)
    have hbb' : values.count b ≤
        values.count (if values.count b < values.count v then v else b) := by
      by_cases hc : values.count b < values.count v
      · rw [if_pos hc]; exact le_of_lt hc
      · rw [if_neg hc]
    have hvb' : values.count v ≤
        values.count (if values.count b < values.count v then v else b) := by
      by_cases hc : values.count b < values.count v
      · rw [if_pos hc]
      · rw [if_neg hc]; exact le_of_not_lt hc
    refine ⟨?_, le_trans hbb' hb, ?_⟩
    · rcases hmem with heq | hm
      · by_cases hc : values.count b < values.count v
        · rw [heq, if_pos hc]
          exact Or.inr (List.mem_cons_self _ _)
        · rw [heq, if_neg hc]
          exact Or.inl rfl
      · exact Or.inr (List.mem_cons_of_mem _ hm)
    · intro y hy
      rcases List.mem_cons.mp hy with heq | hm
      · rw [heq]; exact le_trans hvb' hb
      · exact hall y hm

theorem pyMode_spec (values : List PyVal) (h : values ≠ []) :
    pyMode values ∈ values ∧
      ∀ w ∈ values, values.count w ≤ values.count (pyMode values) := by
  cases hd : dedupBy id values with
  | nil =>
    exfalso
    obtain ⟨a, ha⟩ := List.exists_mem_of_ne_nil _ h
    have hm := (mem_dedupBy_id values a).mpr ha
    rw [hd] at hm
    exact absurd hm (by simp)
  | cons x xs =>
    have hred : pyMode values =
        xs.foldl (fun best v => if values.count best < values.count v then v else best) x := by
      rw [pyMode, hd]
    rw [hred]
    obtain ⟨hmem, hb, hall⟩ := foldl_argmax values xs x
    constructor
    · rcases hmem with heq | hm
      · rw [heq]
        have hx : x ∈ dedupBy id values := by rw [hd]; exact List.mem_cons_self _ _
        exact (mem_dedupBy_id values x).mp hx
      · have hx : xs.foldl
            (fun best v => if values.count best < values.count v then v else best) x ∈
            dedupBy id values := by
          rw [hd]; exact List.mem_cons_of_mem _ hm
        exact (mem_dedupBy_id values _).mp hx
    · intro w hw
      have hwd : w ∈ dedupBy id values := (mem_dedupBy_id values w).mpr hw
      rw [hd] at hwd
      rcases List.mem_cons.mp hwd with heq | hm
      · rw [heq]; exact hb
      · exact hall w hm

theorem mem_extract {df : List Enriched} {s : BioSummary}
    (h : s ∈ extract_biological_summary df) :
    rawPool df s.key ≠ [] ∧ s = summarizeOne s.key (rawPool df s.key) := by
  rw [extract_biological_summary] at h
  obtain ⟨k, hk, hsk⟩ := List.mem_filterMap.mp h
  simp only [] at hsk
  by_cases hp : (rawPool df k).isEmpty
  · rw [if_pos hp] at hsk
    exact absurd hsk (by simp)
  · rw [if_neg hp] at hsk
    have hs := Option.some.inj hsk
    have hkey : s.key = k := by rw [← hs]; rfl
    rw [hkey]
    exact ⟨fun hnil => hp (by rw [hnil]; rfl), hs.symm⟩

theorem lookup_isSome_of_mem_keys (m : BioMap) (p : String)
    (h : p ∈ m.map Prod.fst) : (m.lookup p).isSome := by
  induction m with
  | nil => simp at h
  | cons e rest ih =>
    obtain ⟨k, v⟩ := e
    by_cases hpe : p = k
    · simp [List.lookup, hpe]
    · have hbeq : (p == k) = false := beq_eq_false_iff_ne.mpr hpe
      simp only [List.lookup, hbeq]
      refine ih ?_
      rw [List.map_cons] at h
      rcases List.mem_cons.mp h with h1 | h2
      · exact absurd h1 hpe
      · exact h2

theorem valuesIn_ne_nil {pool : List (Option BioMap)} {p : String}
    (h : p ∈ propsIn pool) : valuesIn pool p ≠ [] := by
  rw [propsIn] at h
  have h1 := (mem_dedupBy_id _ _).mp h
  obtain ⟨m, hm, hpm⟩ := List.mem_flatMap.mp h1
  obtain ⟨v, hv⟩ := Option.isSome_iff_exists.mp (lookup_isSome_of_mem_keys m p hpm)
  exact List.ne_nil_of_mem (List.mem_filterMap.mpr ⟨m, hm, hv⟩)

/-- Claim C4 counterexample: an attribute whose only collected value is
Python `None` does not parse as a number, yet the summary row contains
neither `avg_habitat` nor `most_common_habitat` — the source comprehension
silently skips `None` before parsing, so no exception fires and no field is
emitted, contradicting the claim's "otherwise emit most_common" branch. -/
theorem C4_counterexample :
    ((valuesIn (rawPool
        [⟨⟨"a1", 10, some 1, [], some "X", none, none, none, none, none, none, none⟩,
          some 1, some [some [("habitat", PyVal.vnone)]]⟩] 10) "habitat").all
      parsesOk) = false ∧
    (extract_biological_summary
        [⟨⟨"a1", 10, some 1, [], some "X", none, none, none, none, none, none, none⟩,
          some 1, some [some [("habitat", PyVal.vnone)]]⟩]).map
      (fun s => (s.key, s.avgs.lookup "habitat", s.modes.lookup "habitat")) =
      [(10, none, none)] :=
  ⟨by decide, by decide⟩

/-- Claim C4 (amended): for every species group in the biological summary
and every attribute in the union of its maps' keys, with `None` values set
aside before parsing: if at least one non-`None` value was collected and
every non-`None` value parses as a number, the summary contains
`avg_<attribute>` equal to the arithmetic mean of the parsed non-`None`
values and no `most_common_<attribute>`; if some non-`None` value fails to
parse, it contains no `avg_<attribute>` and `most_common_<attribute>` is a
value of maximal occurrence count among the raw collected values (`None`s
included); if every collected value is `None`, neither field is emitted.
In particular observations `[{key: 10, biological_data: {body_size_cm:
12.0}}, {key: 10, biological_data: {body_size_cm: 14.0}}]` yield
`avg_body_size_cm = 13.0`. -/
theorem C4_amended_bio_summary :
    (∀ (df : List Enriched) (s : BioSummary), s ∈ extract_biological_summary df →
      ∀ p ∈ propsIn (rawPool df s.key),
        (((valuesIn (rawPool df s.key) p).filter (fun v => !(v == PyVal.vnone)) ≠ [] ∧
          ((valuesIn (rawPool df s.key) p).filter
            (fun v => !(v == PyVal.vnone))).all parsesOk = true) →
          s.avgs.lookup p = some
            ((((valuesIn (rawPool df s.key) p).filter
                (fun v => !(v == PyVal.vnone))).filterMap pyFloat).sum /
              ((((valuesIn (rawPool df s.key) p).filter
                (fun v => !(v == PyVal.vnone))).filterMap pyFloat).length : ℚ)) ∧
          s.modes.lookup p = none) ∧
        (((valuesIn (rawPool df s.key) p).filter
            (fun v => !(v == PyVal.vnone))).all parsesOk = false →
          s.avgs.lookup p = none ∧
          ∃ v, s.modes.lookup p = some v ∧ v ∈ valuesIn (rawPool df s.key) p ∧
            ∀ w ∈ valuesIn (rawPool df s.key) p,
              (valuesIn (rawPool df s.key) p).count w ≤
                (valuesIn (rawPool df s.key) p).count v) ∧
        ((valuesIn (rawPool df s.key) p).filter (fun v => !(v == PyVal.vnone)) = [] →
          s.avgs.lookup p = none ∧ s.modes.lookup p = none)) ∧
    (extract_biological_summary (add_observation_data
        [⟨"a1", 10, some (mkRat 9 10), [], some "Parus major", none, none, none,
          none, none, none, none⟩]
        [⟨10, some [("body_size_cm", PyVal.vnum 12)]⟩,
         ⟨10, some [("body_size_cm", PyVal.vnum 14)]⟩]
        [⟨10, some "Parus major", none, none, none⟩])).map
      (fun s => (s.key, s.avgs.lookup "body_size_cm")) = [(10, some 13)] := by
  constructor
  · intro df s hs p hp
    obtain ⟨hpool, hsum⟩ := mem_extract hs
    have hvne := valuesIn_ne_nil hp
    have hv1 : (valuesIn (rawPool df s.key) p).isEmpty = false := by
      cases hIE : (valuesIn (rawPool df s.key) p).isEmpty
      · rfl
      · exact absurd (List.isEmpty_iff.mp hIE) hvne
    have havgs : s.avgs.lookup p =
        if p ∈ propsIn (rawPool df s.key) then avgEntry (rawPool df s.key) p
        else none := by
      conv_lhs => rw [hsum]
      exact lookup_keyed_filterMap _ _ p (dedupBy_id_nodup _)
    have hmodes : s.modes.lookup p =
        if p ∈ propsIn (rawPool df s.key) then modeEntry (rawPool df s.key) p
        else none := by
      conv_lhs => rw [hsum]
      exact lookup_keyed_filterMap _ _ p (dedupBy_id_nodup _)
    rw [if_pos hp] at havgs hmodes
    refine ⟨?_, ?_, ?_⟩
    · rintro ⟨hne, hall⟩
      have hnums : ((valuesIn (rawPool df s.key) p).filter
          (fun v => !(v == PyVal.vnone))).filterMap pyFloat ≠ [] := by
        obtain ⟨v, hv⟩ := List.exists_mem_of_ne_nil _ hne
        have hok : parsesOk v = true := List.all_eq_true.mp hall v hv
        obtain ⟨q, hq⟩ := Option.isSome_iff_exists.mp hok
        exact List.ne_nil_of_mem (List.mem_filterMap.mpr ⟨v, hv, hq⟩)
      have hn1 : (((valuesIn (rawPool df s.key) p).filter
          (fun v => !(v == PyVal.vnone))).filterMap pyFloat).isEmpty = false := by
        cases hIE : (((valuesIn (rawPool df s.key) p).filter
            (fun v => !(v == PyVal.vnone))).filterMap pyFloat).isEmpty
        · rfl
        · exact absurd (List.isEmpty_iff.mp hIE) hnums
      constructor
      · rw [havgs]
        simp only [avgEntry, hv1, Bool.false_eq_true, if_false, hall, if_true, hn1]
        rw [ratMean_eq]
      · rw [hmodes]
        simp only [modeEntry, hv1, Bool.false_eq_true, if_false, hall, if_true]
    · intro hfail
      constructor
      · rw [havgs]
        simp only [avgEntry, hv1, Bool.false_eq_true, if_false, hfail]
      · obtain ⟨hmem, hmax⟩ := pyMode_spec _ hvne
        refine ⟨pyMode (valuesIn (rawPool df s.key) p), ?_, hmem, hmax⟩
        rw [hmodes]
        simp only [modeEntry, hv1, Bool.false_eq_true, if_false, hfail]
    · intro hnn
      constructor
      · rw [havgs]
        simp only [avgEntry, hv1, Bool.false_eq_true, if_false, hnn]
        simp
      · rw [hmodes]
        simp only [modeEntry, hv1, Bool.false_eq_true, if_false, hnn]
        simp
  · decide

/-- Claim C4 witness: the all-`None` clause of the amended theorem at the
habitat example. -/
theorem C4_witness :
    ((⟨10, [], []⟩ : BioSummary) ∈ extract_biological_summary
      [⟨⟨"a1", 10, some 1, [], some "X", none, none, none, none, none, none, none⟩,
        some 1, some [some [("habitat", PyVal.vnone)]]⟩]) ∧
    "habitat" ∈ propsIn (rawPool
      [⟨⟨"a1", 10, some 1, [], some "X", none, none, none, none, none, none, none⟩,
        some 1, some [some [("habitat", PyVal.vnone)]]⟩] (10 : Int)) ∧
    ((⟨10, [], []⟩ : BioSummary).avgs.lookup "habitat" = none ∧
      (⟨10, [], []⟩ : BioSummary).modes.lookup "habitat" = none) :=
  ⟨by decide, by decide,
   (C4_amended_bio_summary.1
      [⟨⟨"a1", 10, some 1, [], some "X", none, none, none, none, none, none, none⟩,
        some 1, some [some [("habitat", PyVal.vnone)]]⟩]
      ⟨10, [], []⟩ (by decide) "habitat" (by decide)).2.2 (by decide)⟩

/-! ### Properties of the Statistics Aggregator -/

theorem mem_aggregate_statistics {df : List Enriched} {r : StatRow}
    (h : r ∈ aggregate_statistics df) :
    ∃ p ∈ dedupBy id ((df.filter (fun x => x.scientific_name.isSome)).map
        (fun x => (x.key, x.scientific_name))),
      r = mergeBio (extract_biological_summary df)
            (mkStatRow (df.filter (fun x => x.scientific_name.isSome)) p) := by
  simp only [aggregate_statistics] at h
  split at h
  · exact absurd h (by simp)
  · have h1 := (mem_isort _ _ r).mp h
    obtain ⟨s, hs, heq⟩ := List.mem_map.mp h1
    obtain ⟨p, hp, heq2⟩ := List.mem_map.mp hs
    exact ⟨p, hp, by rw [← heq, ← heq2]⟩

/-- The biological-summary lookup of `aggregate_statistics`, characterised:
for a key occurring in the frame, the merged `bio` cell is the summary of
that key's pool, or absent when the pool is empty. -/
theorem extract_find (df : List Enriched) (K : Int) (hK : K ∈ df.map (fun x => x.key)) :
    (extract_biological_summary df).find? (fun b => b.key == K) =
      if (rawPool df K).isEmpty then none
      else some (summarizeOne K (rawPool df K)) := by
  simp only [extract_biological_summary]
  rw [find_filterMap_dedupBy
    (fun k => if (rawPool df k).isEmpty then none
      else some (summarizeOne k (rawPool df k)))
    BioSummary.key
    (fun k b hb => by
      simp only [] at hb
      by_cases hp : (rawPool df k).isEmpty
      · rw [if_pos hp] at hb; exact absurd hb (by simp)
      · rw [if_neg hp] at hb
        exact Option.some.inj hb ▸ rfl)
    (df.map (fun x => x.key)) K]
  rw [if_pos hK]

/-- Claim C9: for every input to the Statistics Aggregator, no
`(key, scientific_name)` pair appears in more than one row of the final
statistics output, including after the biological summary is left-joined
onto the grouped rows. -/
theorem C9_stat_pairs_unique :
    ∀ (df : List Enriched),
      ((aggregate_statistics df).map (fun r => (r.key, r.scientific_name))).Nodup := by
  intro df
  simp only [aggregate_statistics]
  split
  · simp
  · have hperm := (isort_perm
      (fun a b : StatRow => decide (b.classification_count ≤ a.classification_count))
      (((dedupBy id ((df.filter (fun x => x.scientific_name.isSome)).map
          (fun x => (x.key, x.scientific_name)))).map
        (mkStatRow (df.filter (fun x => x.scientific_name.isSome)))).map
        (mergeBio (extract_biological_summary df)))).map
      (fun r : StatRow => (r.key, r.scientific_name))
    rw [hperm.nodup_iff]
    rw [List.map_map, List.map_map]
    have hid : (((fun r : StatRow => (r.key, r.scientific_name)) ∘
        mergeBio (extract_biological_summary df)) ∘
        mkStatRow (df.filter (fun x => x.scientific_name.isSome))) =
        fun p : Int × Option String => p := funext (fun p => rfl)
    rw [hid, List.map_id']
    exact dedupBy_id_nodup _

/-- Claim C10: the biological summary is grouped by numeric key alone: each
statistics row's `bio` cell is the summary of the pooled
`biological_data_list` entries of all rows sharing its key — regardless of
their scientific names, and including the sentinel key 0 — so rows that
share a key carry identical biological summary fields. -/
theorem C10_bio_summary_by_key_alone :
    ∀ (df : List Enriched), ∀ r ∈ aggregate_statistics df,
      (r.bio = if (rawPool df r.key).isEmpty then none
               else some (summarizeOne r.key (rawPool df r.key))) ∧
      ∀ r₂ ∈ aggregate_statistics df, r₂.key = r.key → r₂.bio = r.bio := by
  intro df
  have hbio : ∀ r ∈ aggregate_statistics df,
      r.bio = if (rawPool df r.key).isEmpty then none
        else some (summarizeOne r.key (rawPool df r.key)) := by
    intro r hr
    obtain ⟨p, hp, hreq⟩ := mem_aggregate_statistics hr
    have hpmem := (mem_dedupBy_id _ p).mp hp
    obtain ⟨x, hx, hxp⟩ := List.mem_map.mp hpmem
    have hxdf : x ∈ df := List.mem_of_mem_filter hx
    have hkey : r.key = p.1 := by rw [hreq]; rfl
    have hKmem : r.key ∈ df.map (fun y => y.key) := by
      rw [hkey, ← hxp]
      exact List.mem_map_of_mem (fun y => y.key) hxdf
    have hfind := extract_find df r.key hKmem
    have hbioeq : r.bio = (extract_biological_summary df).find?
        (fun b => b.key == r.key) := by
      rw [hreq]; rfl
    rw [hbioeq, hfind]
  intro r hr
  refine ⟨hbio r hr, ?_⟩
  intro r₂ hr₂ hk
  rw [hbio r hr, hbio r₂ hr₂, hk]

/-- Claim C10 witness: two unresolved records sharing the sentinel key 0
under different names; the first output row's `bio` cell is the summary of
their pooled biological data. -/
theorem C10_witness :
    ((⟨0, some "SpecA", some 1, some 1, some 1, 1, 1, 0,
        some ⟨0, [], [("habitat", PyVal.vstr "urban")]⟩⟩ : StatRow) ∈
      aggregate_statistics
        [⟨⟨"a1", 0, some 1, [], some "SpecA", none, none, none, none, none, none,
            none⟩, none, some [some [("habitat", PyVal.vstr "urban")]]⟩,
         ⟨⟨"a2", 0, some 1, [], some "SpecB", none, none, none, none, none, none,
            none⟩, none, some [some [("habitat", PyVal.vstr "forest")]]⟩]) ∧
    (⟨0, some "SpecA", some 1, some 1, some 1, 1, 1, 0,
        some ⟨0, [], [("habitat", PyVal.vstr "urban")]⟩⟩ : StatRow).bio =
      (if (rawPool
          [⟨⟨"a1", 0, some 1, [], some "SpecA", none, none, none, none, none, none,
              none⟩, none, some [some [("habitat", PyVal.vstr "urban")]]⟩,
           ⟨⟨"a2", 0, some 1, [], some "SpecB", none, none, none, none, none, none,
              none⟩, none, some [some [("habitat", PyVal.vstr "forest")]]⟩]
          (0 : Int)).isEmpty then none
       else some (summarizeOne 0 (rawPool
          [⟨⟨"a1", 0, some 1, [], some "SpecA", none, none, none, none, none, none,
              none⟩, none, some [some [("habitat", PyVal.vstr "urban")]]⟩,
           ⟨⟨"a2", 0, some 1, [], some "SpecB", none, none, none, none, none, none,
              none⟩, none, some [some [("habitat", PyVal.vstr "forest")]]⟩]
          (0 : Int)))) :=
  ⟨by decide,
   (C10_bio_summary_by_key_alone
      [⟨⟨"a1", 0, some 1, [], some "SpecA", none, none, none, none, none, none,
          none⟩, none, some [some [("habitat", PyVal.vstr "urban")]]⟩,
       ⟨⟨"a2", 0, some 1, [], some "SpecB", none, none, none, none, none, none,
          none⟩, none, some [some [("habitat", PyVal.vstr "forest")]]⟩]
      ⟨0, some "SpecA", some 1, some 1, some 1, 1, 1, 0,
        some ⟨0, [], [("habitat", PyVal.vstr "urban")]⟩⟩ (by decide)).1⟩

end Dionis
